import Mathlib

/-!
Shallow embedding of the timetable frontend of
`src/app/dashboard/timetables/[id]/page.tsx` (the detail page together with
the `TimetableGrid` component it renders), and a spec-modelled fragment of
the genetic-algorithm population engine whose backend source is not part of
the repository snapshot.

A schedule is the JSON value served by `view_schedule`: a record mapping a
day name to a record mapping a time-slot string `"HH:MM:SS-HH:MM:SS"` to the
list of classes in that cell.  Records are modelled as insertion-ordered
association lists, matching JS object/Map iteration order.
-/

/-- The source's `TimetableClass` interface (all fields are strings). -/
structure TimetableClass where
  class_id : String
  course : String
  course_id : String
  instructor : String
  room : String
  «section» : String
  course_type : String
deriving DecidableEq, Repr

/-- One day's record: time slot string ↦ classes in that cell. -/
abbrev DaySchedule := List (String × List TimetableClass)

/-- The whole schedule: day name ↦ that day's record. -/
abbrev Schedule := List (String × DaySchedule)

/-- `schedule[day]?.[timeSlot] || []` of the grid's rendering code: a
missing day or slot key gives the empty cell. -/
def lookupCell (schedule : Schedule) (day timeSlot : String) : List TimetableClass :=
  (((schedule.lookup day).getD []).lookup timeSlot).getD []

/-- The source's `days` constant: only Monday–Friday are rendered. -/
def days : List String :=
  ["Monday", "Tuesday", "Wednesday", "Thursday", "Friday"]

/-- The source's `LUNCH_START_PREFIX` constant. -/
def LUNCH_START_PREFIX : String := "13:00"

/-- The source's `isLunchSlot`: `slot.startsWith(LUNCH_START_PREFIX)`.  A
JS `startsWith` is a character-sequence prefix test, embedded here on the
strings' character lists. -/
def isLunchSlot (slot : String) : Bool :=
  LUNCH_START_PREFIX.data.isPrefixOf slot.data

/-- `slot.split('-')[0]`: the start-time part of `"HH:MM:SS-HH:MM:SS"`. -/
def startOf (slot : String) : String :=
  (slot.splitOn "-").headD ""

/-- The grid's sort comparator on slots: compare start times.  The source
uses `localeCompare`, which on these ASCII `HH:MM:SS` strings coincides with
lexicographic string order. -/
def slotLE (a b : String) : Bool :=
  decide (startOf a ≤ startOf b)

/-- One day's contribution to the slot collection: skipped unless the day
is Monday–Friday, else each slot key is added to the `Set` (append on first
occurrence). -/
def collectStep (acc : List String) (entry : String × DaySchedule) : List String :=
  if days.contains entry.1 then
    entry.2.foldl
      (fun acc2 slotEntry =>
        if acc2.contains slotEntry.1 then acc2 else acc2 ++ [slotEntry.1])
      acc
  else acc

/-- The grid's time-slot collection: every slot key of every day that is in
`days`, deduplicated in first-insertion order (a JS `Set`). -/
def collectTimeSlots (schedule : Schedule) : List String :=
  schedule.foldl collectStep []

/-- Inject the canonical lunch slot `"13:00:00-13:45:00"` when no collected
slot starts with `13:00` (the source's `hasLunch` check). -/
def injectLunch (slots : List String) : List String :=
  if slots.any isLunchSlot then slots
  else slots ++ ["13:00:00-13:45:00"]

/-- The grid's `timeSlots` state: collected slots, lunch injected, sorted
by start time. -/
def computeTimeSlots (schedule : Schedule) : List String :=
  (injectLunch (collectTimeSlots schedule)).mergeSort slotLE

/-- What a day column of one row displays: the forced lunch block, or the
cell's class list. -/
inductive CellRender where
  | lunch
  | classes (cs : List TimetableClass)
deriving DecidableEq, Repr

/-- The grid's body: a lunch row shows the lunch block for every day; any
other row shows `schedule[day]?.[timeSlot] || []`. -/
def renderCell (schedule : Schedule) (day timeSlot : String) : CellRender :=
  if isLunchSlot timeSlot then CellRender.lunch
  else CellRender.classes (lookupCell schedule day timeSlot)

/-! ## The grid's drag-and-drop handlers

The grid's props are `{ schedule, title? }`: the page passes `editMode` and
`onSlotUpdate` as well, but the component declares neither, so no callback
reaches the drop path.  `handleDrop` is embedded as the list of UI actions
one drop performs. -/

/-- The props `TimetableGrid` declares (`TimetableGridProps`). -/
structure TimetableGridProps where
  schedule : Schedule
  title : Option String
deriving DecidableEq, Repr

/-- A `React.DragEvent` as the handlers see it: the dragged class payload
(set by `handleDragStart`) and the cell it is dropped on. -/
structure DragEvent where
  payload : String
  targetDay : String
  targetTimeSlot : String
deriving DecidableEq, Repr

/-- Everything the grid component can do in an event handler: the calls that
appear anywhere in its source. -/
inductive GridAction where
  | preventDefault
  | toastError (msg : String)
  | setTimeSlots (slots : List String)
  | setCourseLegend (legend : List String)
  | invokeOnSlotUpdate (classId day timeSlot : String)
deriving DecidableEq, Repr

/-- The warning the drop handler shows. -/
def dropWarning : String :=
  "Timetable is fixed by the genetic algorithm. Manual changes are not allowed."

/-- The source's `handleDrop`: `event.preventDefault()`, then an error toast;
nothing else, whatever the event. -/
def handleDrop (_ev : DragEvent) : List GridAction :=
  [GridAction.preventDefault, GridAction.toastError dropWarning]

/-- The view state the grid's actions can touch: the schedule it displays
(owned by the page) and its two `useState` cells. -/
structure GridView where
  schedule : Schedule
  timeSlots : List String
  courseLegendKeys : List String
deriving DecidableEq, Repr

/-- How one action changes the grid's view.  A toast and `preventDefault`
touch nothing; the state setters replace their cell; invoking `onSlotUpdate`
hands control to the page, which may replace the schedule. -/
def applyGridAction (upd : Schedule → String → String → String → Schedule)
    (v : GridView) : GridAction → GridView
  | GridAction.preventDefault => v
  | GridAction.toastError _ => v
  | GridAction.setTimeSlots ts => { v with timeSlots := ts }
  | GridAction.setCourseLegend l => { v with courseLegendKeys := l }
  | GridAction.invokeOnSlotUpdate c d t => { v with schedule := upd v.schedule c d t }

/-- Run a handler's action list over the view. -/
def runGridActions (upd : Schedule → String → String → String → Schedule)
    (v : GridView) (acts : List GridAction) : GridView :=
  acts.foldl (applyGridAction upd) v

/-! ## The page's `handleSlotUpdate` -/

/-- One item of a failed `update_slot` response's `conflicts` list, as the
handler reads it (`c.type`, `c.course`). -/
structure ConflictItem where
  type : String
  course : String
deriving DecidableEq, Repr

/-- The fields of `error.response.data` the handler inspects.  A missing
field is `none`. -/
structure ApiErrorData where
  error : Option String
  detail : Option String
  conflicts : Option (List ConflictItem)
deriving DecidableEq, Repr

/-- `error.response`, which may be absent (`error.response?.`). -/
structure ApiResponse where
  data : Option ApiErrorData
deriving DecidableEq, Repr

/-- The caught axios error. -/
structure ApiError where
  response : Option ApiResponse
deriving DecidableEq, Repr

/-- JS truthiness of an optional string field: present and non-empty. -/
def truthy : Option String → Bool
  | none => false
  | some s => !(s == "")

/-- The handler's error-message extraction: start from
`'Failed to move class'`, then take `data.error`, else `data.detail`, else
build the conflict message from `data.conflicts` (an array, even empty, is
truthy in JS). -/
def extractErrorMessage (err : ApiError) : String :=
  match err.response with
  | none => "Failed to move class"
  | some resp =>
    match resp.data with
    | none => "Failed to move class"
    | some d =>
      if truthy d.error then d.error.getD ""
      else if truthy d.detail then d.detail.getD ""
      else
        match d.conflicts with
        | some cs =>
          "Conflict detected: " ++
            String.intercalate ", "
              (cs.map (fun c => c.type ++ " conflict for " ++ c.course))
        | none => "Failed to move class"

/-- What the page does in `handleSlotUpdate`. -/
inductive PageAction where
  | consoleLog (msg : String)
  | apiPatchUpdateSlot (classId day timeSlot : String)
  | consoleError (msg : String)
  | fetchTimetable
  | throwError (msg : String)
deriving DecidableEq, Repr

/-- The source's `handleSlotUpdate`, indexed by the outcome of the
`api.patch('/classes/update_slot/', ...)` call: on success it logs and
refreshes via `fetchTimetable`; on failure it logs the error, extracts a
message and throws — it never refreshes. -/
def handleSlotUpdate (classId day timeSlot : String)
    (apiResult : Except ApiError Unit) : List PageAction :=
  match apiResult with
  | Except.ok _ =>
    [PageAction.consoleLog "Updating class slot:",
     PageAction.apiPatchUpdateSlot classId day timeSlot,
     PageAction.consoleLog "API call successful",
     PageAction.fetchTimetable]
  | Except.error e =>
    [PageAction.consoleLog "Updating class slot:",
     PageAction.apiPatchUpdateSlot classId day timeSlot,
     PageAction.consoleError "Failed to update class slot:",
     PageAction.throwError (extractErrorMessage e)]

/-! ## Insertion-ordered maps

A JS `Map` (and a plain object with string keys): updating a present key
keeps its position, a new key is appended. -/

/-- Ensure key `k` is present (defaulting to `d`) and apply `f` to its
value. -/
def upsertWith {β : Type} (k : String) (d : β) (f : β → β) :
    List (String × β) → List (String × β)
  | [] => [(k, f d)]
  | e :: rest => if e.1 = k then (e.1, f e.2) :: rest else e :: upsertWith k d f rest

/-! ## The course legend -/

/-- One legend entry (`{course_id, course, instructors}`). -/
structure LegendEntry where
  course_id : String
  course : String
  instructors : List String
deriving DecidableEq, Repr

/-- The legend key of a class: `cls.course_id || cls.course`. -/
def legendKey (cls : TimetableClass) : String :=
  if cls.course_id = "" then cls.course else cls.course_id

/-- A JS `Set.add` on the instructor list: append unless present. -/
def addInstructor (i : String) (l : List String) : List String :=
  if l.contains i then l else l ++ [i]

/-- One class's effect on the legend map: create `{course_id, course,
instructors: new Set([instructor])}` for a new key, else add the
instructor. -/
def insertLegend (cls : TimetableClass) (m : List (String × LegendEntry)) :
    List (String × LegendEntry) :=
  upsertWith (legendKey cls)
    { course_id := cls.course_id, course := cls.course, instructors := [] }
    (fun e => { e with instructors := addInstructor cls.instructor e.instructors }) m

/-- One day's contribution to the legend pass: skipped unless Monday–Friday,
else every class of every slot in iteration order. -/
def mfStep (acc : List TimetableClass) (e : String × DaySchedule) :
    List TimetableClass :=
  if days.contains e.1 then acc ++ (e.2.map Prod.snd).flatten else acc

/-- The classes the legend pass visits: every class of every slot of every
Monday–Friday day, in iteration order. -/
def mfClasses (schedule : Schedule) : List TimetableClass :=
  schedule.foldl mfStep []

/-- The grid's `legendMap`. -/
def buildLegendMap (schedule : Schedule) : List (String × LegendEntry) :=
  (mfClasses schedule).foldl (fun m cls => insertLegend cls m) []

/-- The grid's `courseLegend` state: the map's values. -/
def courseLegend (schedule : Schedule) : List LegendEntry :=
  (buildLegendMap schedule).map Prod.snd

/-- Fold a run of classes into one legend entry's instructor set (used to
state what a legend entry accumulates). -/
def addClasses (e : LegendEntry) (cs : List TimetableClass) : LegendEntry :=
  cs.foldl
    (fun e c => { e with instructors := addInstructor c.instructor e.instructors })
    e

/-! ## The page's `processSections` -/

/-- Every `(day, timeSlot, class)` occurrence of a schedule, in the
iteration order of `processSections` (note: it does not filter by day). -/
def allEntries (schedule : Schedule) :
    List (String × String × TimetableClass) :=
  (schedule.map (fun e =>
    (e.2.map (fun se => se.2.map (fun c => (e.1, se.1, c)))).flatten)).flatten

/-- One class occurrence's effect on the section map: ensure the section,
day and time-slot levels exist and push the class onto the cell. -/
def sectionStep (m : List (String × Schedule))
    (t : String × String × TimetableClass) : List (String × Schedule) :=
  upsertWith t.2.2.«section» []
    (fun secSched =>
      upsertWith t.1 []
        (fun daySched =>
          upsertWith t.2.1 [] (fun cell => cell ++ [t.2.2]) daySched)
        secSched)
    m

/-- The source's `processSections`: group every class occurrence under its
`section` field, preserving its `(day, timeSlot)` cell. -/
def processSections (schedule : Schedule) : List (String × Schedule) :=
  (allEntries schedule).foldl sectionStep []

/-- The cell a section's grid shows at `(day, timeSlot)` (a section absent
from the map shows the empty cell). -/
def sectionCell (m : List (String × Schedule)) (sec day timeSlot : String) :
    List TimetableClass :=
  lookupCell ((m.lookup sec).getD []) day timeSlot

/-! ## The population engine (spec-modelled)

The genetic algorithm lives in `backend/scheduler_app/genetic_algorithm.py`,
which is not part of the repository snapshot; only the elitism step needed
by the monotonicity claim is modelled here, from the spec's words. -/

/-- Modelled from the spec: "the top-E candidates by FitnessReport from the
current generation are copied unchanged into the next generation" — sort the
population best-fitness-first and take the elite count.  (The backend's
`genetic_algorithm.py` is missing from the sources.) -/
def selectElites {α : Type} (fitness : α → ℚ) (eliteCount : ℕ)
    (pop : List α) : List α :=
  (pop.mergeSort (fun a b => decide (fitness b ≤ fitness a))).take eliteCount

/-- Modelled from the spec: one generation step — the elites bypass
crossover/mutation and are copied unchanged; the rest of the next
generation comes from selection/crossover/mutation, abstracted as
`breed`. -/
def nextGeneration {α : Type} (fitness : α → ℚ) (eliteCount : ℕ)
    (breed : List α → List α) (pop : List α) : List α :=
  selectElites fitness eliteCount pop ++ breed pop

/-- Modelled from the spec: the best fitness of a generation (`⊥` for an
empty population). -/
def bestFitness {α : Type} (fitness : α → ℚ) (pop : List α) : WithBot ℚ :=
  (pop.map fitness).maximum

/-- A concrete drop in edit mode onto an empty — hence conflict-free —
Monday 09:00 cell. -/
def evC1 : DragEvent :=
  { payload := "CS101", targetDay := "Monday",
    targetTimeSlot := "09:00:00-10:00:00" }

/-- A concrete view whose Monday 09:00 cell is empty. -/
def viewC1 : GridView :=
  { schedule := [("Monday", [("09:00:00-10:00:00", [])])],
    timeSlots := ["09:00:00-10:00:00"], courseLegendKeys := [] }

/-! # Theorems -/

/-- C2: every drop event, on any cell and with or without edit mode (the
grid receives no edit-mode input at all), performs exactly
`preventDefault` and a warning toast: no state setter runs, no update
callback is invoked, and the displayed view — the schedule in particular —
is unchanged. -/
theorem handleDrop_only_warns (ev : DragEvent)
    (upd : Schedule → String → String → String → Schedule) (v : GridView) :
    handleDrop ev =
      [GridAction.preventDefault, GridAction.toastError dropWarning] ∧
    runGridActions upd v (handleDrop ev) = v :=
  ⟨rfl, rfl⟩

/-- C1 counterexample: dropping a class onto the conflict-free Monday
09:00 cell (edit mode on) invokes no slot-update callback — refuting the
claim that the grid applies the move there. -/
theorem handleDrop_never_invokes_callback_cex :
    (¬ ∃ c d t, GridAction.invokeOnSlotUpdate c d t ∈ handleDrop evC1) ∧
    runGridActions (fun s _ _ _ => s) viewC1 (handleDrop evC1) = viewC1 := by
  constructor
  · rintro ⟨c, d, t, h⟩
    simp [handleDrop, dropWarning] at h
  · rfl

/-- C1 amended: when a class is dropped onto a conflict-free slot — with or
without edit mode — the grid does not apply the move: it invokes no
slot-update callback (its props declare none), only shows the warning
toast, and the displayed schedule is unchanged. -/
theorem handleDrop_applies_nothing (ev : DragEvent)
    (upd : Schedule → String → String → String → Schedule) (v : GridView) :
    (¬ ∃ c d t, GridAction.invokeOnSlotUpdate c d t ∈ handleDrop ev) ∧
    GridAction.toastError dropWarning ∈ handleDrop ev ∧
    (runGridActions upd v (handleDrop ev)).schedule = v.schedule := by
  refine ⟨?_, ?_, rfl⟩
  · rintro ⟨c, d, t, h⟩
    simp [handleDrop, dropWarning] at h
  · simp [handleDrop]

/-- C3: `handleSlotUpdate` refreshes the page's schedule state
(`fetchTimetable`) exactly when the `update_slot` request succeeds; on any
failure it performs no refresh and only rethrows the extracted message, so
the original schedule is left unchanged. -/
theorem handleSlotUpdate_refreshes_only_on_success
    (classId day timeSlot : String) (r : Except ApiError Unit) :
    (PageAction.fetchTimetable ∈ handleSlotUpdate classId day timeSlot r ↔
      ∃ u, r = Except.ok u) ∧
    (∀ e, r = Except.error e →
      handleSlotUpdate classId day timeSlot r =
        [PageAction.consoleLog "Updating class slot:",
         PageAction.apiPatchUpdateSlot classId day timeSlot,
         PageAction.consoleError "Failed to update class slot:",
         PageAction.throwError (extractErrorMessage e)]) := by
  cases r with
  | ok u => exact ⟨by simp [handleSlotUpdate], by intro e h; cases h⟩
  | error e => exact ⟨by simp [handleSlotUpdate], by intro e' h; cases h; rfl⟩

/-- The slot comparator is transitive. -/
lemma slotLE_trans :
    ∀ a b c : String, slotLE a b = true → slotLE b c = true → slotLE a c = true := by
  intro a b c hab hbc
  simp only [slotLE, decide_eq_true_eq] at *
  exact le_trans hab hbc

/-- The slot comparator is total. -/
lemma slotLE_total : ∀ a b : String, (slotLE a b || slotLE b a) = true := by
  intro a b
  simp only [slotLE, Bool.or_eq_true, decide_eq_true_eq]
  exact le_total _ _

/-- C7: the rendered rows are sorted — for every adjacent pair the earlier
row's start-time substring is lexicographically at most the later one's. -/
theorem computeTimeSlots_rows_ordered (schedule : Schedule) :
    (computeTimeSlots schedule).Chain' (fun a b => startOf a ≤ startOf b) := by
  have h := List.sorted_mergeSort slotLE_trans slotLE_total
    (injectLunch (collectTimeSlots schedule))
  have h2 : (computeTimeSlots schedule).Pairwise (fun a b => startOf a ≤ startOf b) := by
    refine List.Pairwise.imp ?_ h
    intro a b hab
    simpa [slotLE, decide_eq_true_eq] using hab
  exact h2.chain'

/-- C4: every rendered schedule has a lunch row (a slot starting `13:00`),
injected as `"13:00:00-13:45:00"` when none is present in the schedule, and
every lunch row renders the lunch block in every day column — never a
class, whatever the input assigns there. -/
theorem lunch_row_always_rendered (schedule : Schedule) :
    (∃ slot ∈ computeTimeSlots schedule, isLunchSlot slot = true) ∧
    ((collectTimeSlots schedule).any isLunchSlot = false →
      "13:00:00-13:45:00" ∈ computeTimeSlots schedule) ∧
    (∀ slot ∈ computeTimeSlots schedule, isLunchSlot slot = true →
      ∀ day, renderCell schedule day slot = CellRender.lunch) := by
  refine ⟨?_, ?_, ?_⟩
  · by_cases h : (collectTimeSlots schedule).any isLunchSlot = true
    · obtain ⟨s, hs, hstart⟩ := List.any_eq_true.mp h
      refine ⟨s, ?_, hstart⟩
      simp only [computeTimeSlots, List.mem_mergeSort, injectLunch, h, if_true]
      exact hs
    · refine ⟨"13:00:00-13:45:00", ?_, by decide⟩
      simp only [computeTimeSlots, List.mem_mergeSort, injectLunch,
        eq_false_of_ne_true h, if_false]
      exact List.mem_append_right _ (List.mem_singleton.mpr rfl)
  · intro h
    simp only [computeTimeSlots, List.mem_mergeSort, injectLunch, h, if_false]
    exact List.mem_append_right _ (List.mem_singleton.mpr rfl)
  · intro slot _ hl day
    simp [renderCell, hl]

/-- Days skipped by `collectStep` leave the accumulator unchanged, so
filtering the schedule down to Monday–Friday does not change the
collection. -/
lemma foldl_collectStep_filter (l : Schedule) (acc : List String) :
    (l.filter (fun e => days.contains e.1)).foldl collectStep acc =
      l.foldl collectStep acc := by
  induction l generalizing acc with
  | nil => rfl
  | cons e rest ih =>
    rw [List.filter_cons]
    cases h : days.contains e.1 with
    | true => rw [if_pos (by simp [h]), List.foldl_cons, List.foldl_cons, ih]
    | false =>
      have hskip : collectStep acc e = acc := by
        unfold collectStep
        rw [h]
        rfl
      rw [if_neg (by simp [h]), List.foldl_cons, ih, hskip]

/-- Days skipped by `mfStep` leave the accumulator unchanged. -/
lemma foldl_mfStep_filter (l : Schedule) (acc : List TimetableClass) :
    (l.filter (fun e => days.contains e.1)).foldl mfStep acc =
      l.foldl mfStep acc := by
  induction l generalizing acc with
  | nil => rfl
  | cons e rest ih =>
    rw [List.filter_cons]
    cases h : days.contains e.1 with
    | true => rw [if_pos (by simp [h]), List.foldl_cons, List.foldl_cons, ih]
    | false =>
      have hskip : mfStep acc e = acc := by
        unfold mfStep
        rw [h]
        rfl
      rw [if_neg (by simp [h]), List.foldl_cons, ih, hskip]

/-- C8: schedule entries keyed by a day outside Monday–Friday contribute
nothing: restricting the schedule to Monday–Friday leaves both the rendered
time-slot rows and the course legend unchanged. -/
theorem weekend_entries_ignored (schedule : Schedule) :
    computeTimeSlots (schedule.filter (fun e => days.contains e.1)) =
      computeTimeSlots schedule ∧
    buildLegendMap (schedule.filter (fun e => days.contains e.1)) =
      buildLegendMap schedule := by
  constructor
  · simp only [computeTimeSlots, collectTimeSlots, foldl_collectStep_filter]
  · simp only [buildLegendMap, mfClasses, foldl_mfStep_filter]

/-- Looking up the upserted key finds `f` applied to the previous value (or
the default). -/
lemma lookup_upsertWith_self {β : Type} (k : String) (d : β) (f : β → β)
    (m : List (String × β)) :
    (upsertWith k d f m).lookup k = some (f ((m.lookup k).getD d)) := by
  induction m with
  | nil => simp [upsertWith]
  | cons e rest ih =>
    obtain ⟨a, b⟩ := e
    by_cases h : a = k
    · subst h
      simp [upsertWith, List.lookup_cons]
    · have hba : (k == a) = false := by simp [Ne.symm h]
      simp [upsertWith, h, List.lookup_cons, hba, ih]

/-- Looking up any other key is unchanged by an upsert. -/
lemma lookup_upsertWith_ne {β : Type} {k k' : String} (d : β) (f : β → β)
    (m : List (String × β)) (h : k' ≠ k) :
    (upsertWith k d f m).lookup k' = m.lookup k' := by
  have hbk : (k' == k) = false := by simp [h]
  induction m with
  | nil => simp [upsertWith, List.lookup_cons, hbk]
  | cons e rest ih =>
    obtain ⟨a, b⟩ := e
    by_cases ha : a = k
    · subst ha
      simp [upsertWith, List.lookup_cons, hbk]
    · simp [upsertWith, ha, List.lookup_cons, ih]

/-- An upsert keeps the key list, appending `k` only when absent. -/
lemma keys_upsertWith {β : Type} (k : String) (d : β) (f : β → β)
    (m : List (String × β)) :
    (upsertWith k d f m).map Prod.fst =
      if (m.map Prod.fst).contains k then m.map Prod.fst
      else m.map Prod.fst ++ [k] := by
  induction m with
  | nil => simp [upsertWith]
  | cons e rest ih =>
    obtain ⟨a, b⟩ := e
    by_cases h : a = k
    · subst h
      simp [upsertWith]
    · have hba : (k == a) = false := by simp [Ne.symm h]
      simp only [upsertWith, if_neg h, List.map_cons, ih, List.contains_cons,
        hba, Bool.false_or]
      by_cases hc : (List.map Prod.fst rest).contains k = true
      · rw [if_pos hc, if_pos hc]
      · rw [if_neg hc, if_neg hc, List.cons_append]

/-- An upsert preserves distinctness of keys. -/
lemma nodup_keys_upsertWith {β : Type} (k : String) (d : β) (f : β → β)
    (m : List (String × β)) (h : (m.map Prod.fst).Nodup) :
    ((upsertWith k d f m).map Prod.fst).Nodup := by
  rw [keys_upsertWith]
  by_cases hc : (List.map Prod.fst m).contains k = true
  · rw [if_pos hc]
    exact h
  · rw [if_neg hc, ← List.concat_eq_append]
    exact List.Nodup.concat (by simpa using hc) h

/-- C5: a failed response whose data carries a `conflicts` list and neither
an `error` nor a `detail` field yields the message
`"Conflict detected: "` followed by `"<type> conflict for <course>"` for
each conflict in order, joined by `", "`. -/
theorem extractErrorMessage_conflicts (cs : List ConflictItem) :
    extractErrorMessage
      ⟨some ⟨some ⟨none, none, some cs⟩⟩⟩ =
      "Conflict detected: " ++
        String.intercalate ", "
          (cs.map (fun c => c.type ++ " conflict for " ++ c.course)) := by
  rfl


/-- One `sectionStep` appends the class to exactly its own
`(section, day, timeSlot)` cell and touches no other cell. -/
lemma sectionCell_sectionStep (m : List (String × Schedule))
    (t : String × String × TimetableClass) (sec day slot : String) :
    sectionCell (sectionStep m t) sec day slot =
      if t.2.2.«section» = sec ∧ t.1 = day ∧ t.2.1 = slot then
        sectionCell m sec day slot ++ [t.2.2]
      else sectionCell m sec day slot := by
  obtain ⟨td, ts, c⟩ := t
  simp only [sectionStep, sectionCell, lookupCell]
  by_cases h1 : c.«section» = sec
  · subst h1
    rw [lookup_upsertWith_self]
    simp only [Option.getD_some]
    by_cases h2 : td = day
    · subst h2
      rw [lookup_upsertWith_self]
      simp only [Option.getD_some]
      by_cases h3 : ts = slot
      · subst h3
        rw [lookup_upsertWith_self]
        simp only [Option.getD_some]
        simp
      · rw [lookup_upsertWith_ne _ _ _ (fun e => h3 e.symm),
          if_neg (fun hc => h3 hc.2.2)]
    · rw [lookup_upsertWith_ne _ _ _ (fun e => h2 e.symm),
        if_neg (fun hc => h2 hc.2.1)]
  · rw [lookup_upsertWith_ne _ _ _ (fun e => h1 e.symm),
      if_neg (fun hc => h1 hc.1)]

/-- Folding `sectionStep` over a list of occurrences appends, to each cell,
exactly the occurrences naming that section, day and time slot. -/
lemma sectionCell_foldl (ts : List (String × String × TimetableClass))
    (m : List (String × Schedule)) (sec day slot : String) :
    sectionCell (ts.foldl sectionStep m) sec day slot =
      sectionCell m sec day slot ++
        (ts.filter (fun t =>
          t.2.2.«section» == sec && t.1 == day && t.2.1 == slot)).map
          (fun t => t.2.2) := by
  induction ts generalizing m with
  | nil => simp
  | cons t rest ih =>
    rw [List.foldl_cons, ih, sectionCell_sectionStep, List.filter_cons]
    by_cases hcond : t.2.2.«section» = sec ∧ t.1 = day ∧ t.2.1 = slot
    · obtain ⟨h1, h2, h3⟩ := hcond
      have hb : (t.2.2.«section» == sec && t.1 == day && t.2.1 == slot) = true := by
        simp [h1, h2, h3]
      rw [if_pos ⟨h1, h2, h3⟩, if_pos hb, List.map_cons, List.append_cons,
        List.append_assoc]
      simp
    · have hb : ¬((t.2.2.«section» == sec && t.1 == day && t.2.1 == slot) = true) := by
        simp only [Bool.and_eq_true, beq_iff_eq]
        intro hx
        exact hcond ⟨hx.1.1, hx.1.2, hx.2⟩
      rw [if_neg hcond, if_neg hb]

/-- Folding `sectionStep` keeps the section keys distinct. -/
lemma nodup_keys_foldl_sectionStep
    (ts : List (String × String × TimetableClass))
    (m : List (String × Schedule)) (h : (m.map Prod.fst).Nodup) :
    (((ts.foldl sectionStep m)).map Prod.fst).Nodup := by
  induction ts generalizing m with
  | nil => exact h
  | cons t rest ih => exact ih _ (nodup_keys_upsertWith _ _ _ _ h)

/-- C9: `processSections` partitions the schedule by section without loss or
duplication: section keys are distinct, and the cell a section's grid shows
at `(day, timeSlot)` holds exactly the input occurrences at that day and
slot whose `section` field names that section, in order — so every class
instance lands in exactly one section's schedule, at its original cell. -/
theorem processSections_partitions (schedule : Schedule)
    (sec day timeSlot : String) :
    ((processSections schedule).map Prod.fst).Nodup ∧
    sectionCell (processSections schedule) sec day timeSlot =
      ((allEntries schedule).filter (fun t =>
        t.2.2.«section» == sec && t.1 == day && t.2.1 == timeSlot)).map
        (fun t => t.2.2) := by
  constructor
  · exact nodup_keys_foldl_sectionStep _ _ (by simp)
  · rw [processSections, sectionCell_foldl]
    rfl

/-- Membership in an instructor set after a `Set.add`. -/
lemma mem_addInstructor (i j : String) (l : List String) :
    i ∈ addInstructor j l ↔ i ∈ l ∨ i = j := by
  unfold addInstructor
  by_cases h : l.contains j = true
  · rw [if_pos h]
    have hj : j ∈ l := by simpa using h
    constructor
    · exact Or.inl
    · rintro (hi | rfl)
      · exact hi
      · exact hj
  · rw [if_neg h]
    simp

/-- A `Set.add` keeps the instructor list duplicate-free. -/
lemma nodup_addInstructor (j : String) (l : List String) (h : l.Nodup) :
    (addInstructor j l).Nodup := by
  unfold addInstructor
  by_cases hc : l.contains j = true
  · rw [if_pos hc]
    exact h
  · rw [if_neg hc, ← List.concat_eq_append]
    exact List.Nodup.concat (by simpa using hc) h

/-- The instructors accumulated over a run of classes. -/
lemma mem_instructors_addClasses (e : LegendEntry) (cs : List TimetableClass)
    (i : String) :
    i ∈ (addClasses e cs).instructors ↔
      i ∈ e.instructors ∨ ∃ c ∈ cs, c.instructor = i := by
  induction cs generalizing e with
  | nil => simp [addClasses]
  | cons c rest ih =>
    rw [addClasses, List.foldl_cons, ← addClasses, ih]
    simp only [mem_addInstructor, List.mem_cons]
    constructor
    · rintro ((hi | rfl) | ⟨c', hc', rfl⟩)
      · exact Or.inl hi
      · exact Or.inr ⟨c, Or.inl rfl, rfl⟩
      · exact Or.inr ⟨c', Or.inr hc', rfl⟩
    · rintro (hi | ⟨c', hc' | hc', rfl⟩)
      · exact Or.inl (Or.inl hi)
      · subst hc'
        exact Or.inl (Or.inr rfl)
      · exact Or.inr ⟨c', hc', rfl⟩

/-- Accumulating classes keeps the instructor list duplicate-free. -/
lemma nodup_instructors_addClasses (e : LegendEntry)
    (cs : List TimetableClass) (h : e.instructors.Nodup) :
    (addClasses e cs).instructors.Nodup := by
  induction cs generalizing e with
  | nil => exact h
  | cons c rest ih =>
    rw [addClasses, List.foldl_cons, ← addClasses]
    exact ih _ (nodup_addInstructor _ _ h)

/-- Folding classes into the legend map, seen from a key already present:
the entry accumulates exactly the classes whose key matches. -/
lemma legend_foldl_lookup_some (cs : List TimetableClass)
    (m : List (String × LegendEntry)) (k : String) (e : LegendEntry)
    (h : m.lookup k = some e) :
    (cs.foldl (fun acc cls => insertLegend cls acc) m).lookup k =
      some (addClasses e (cs.filter (fun c => legendKey c == k))) := by
  induction cs generalizing m e with
  | nil => simpa [addClasses] using h
  | cons c rest ih =>
    rw [List.foldl_cons, List.filter_cons]
    by_cases hk : legendKey c = k
    · have hb : (legendKey c == k) = true := by simp [hk]
      have h2 : (insertLegend c m).lookup k =
          some { e with instructors := addInstructor c.instructor e.instructors } := by
        unfold insertLegend
        rw [hk, lookup_upsertWith_self, h]
        rfl
      rw [if_pos hb, ih _ _ h2]
      rfl
    · have hb : (legendKey c == k) = false := by simp [hk]
      have h2 : (insertLegend c m).lookup k = some e := by
        unfold insertLegend
        rw [lookup_upsertWith_ne _ _ _ (fun ee => hk ee.symm), h]
      rw [if_neg (by simp [hb]), ih _ _ h2]

/-- Folding classes into the legend map, seen from an absent key: the key
appears exactly when some class carries it, seeded from the first such
class. -/
lemma legend_foldl_lookup_none (cs : List TimetableClass)
    (m : List (String × LegendEntry)) (k : String) (h : m.lookup k = none) :
    (cs.foldl (fun acc cls => insertLegend cls acc) m).lookup k =
      match cs.filter (fun c => legendKey c == k) with
      | [] => none
      | c0 :: rest =>
        some (addClasses
          { course_id := c0.course_id, course := c0.course,
            instructors := [c0.instructor] } rest) := by
  induction cs generalizing m with
  | nil => simpa using h
  | cons c rest ih =>
    rw [List.foldl_cons, List.filter_cons]
    by_cases hk : legendKey c = k
    · have hb : (legendKey c == k) = true := by simp [hk]
      have h2 : (insertLegend c m).lookup k =
          some { course_id := c.course_id, course := c.course,
                 instructors := [c.instructor] } := by
        unfold insertLegend
        rw [hk, lookup_upsertWith_self, h]
        rfl
      rw [if_pos hb, legend_foldl_lookup_some rest _ _ _ h2]
    · have hb : (legendKey c == k) = false := by simp [hk]
      have h2 : (insertLegend c m).lookup k = none := by
        unfold insertLegend
        rw [lookup_upsertWith_ne _ _ _ (fun ee => hk ee.symm), h]
      rw [if_neg (by simp [hb]), ih _ h2]

/-- Folding classes into the legend map keeps its keys distinct. -/
lemma nodup_keys_legend_foldl (cs : List TimetableClass)
    (m : List (String × LegendEntry)) (h : (m.map Prod.fst).Nodup) :
    ((cs.foldl (fun acc cls => insertLegend cls acc) m).map Prod.fst).Nodup := by
  induction cs generalizing m with
  | nil => exact h
  | cons c rest ih => exact ih _ (nodup_keys_upsertWith _ _ _ _ h)

/-- C10: the legend holds exactly one entry per distinct course key
(`course_id`, or the course name when `course_id` is empty) occurring on
Monday–Friday — keys are distinct and a key is present exactly when some
visited class carries it — and each entry's instructor list is
duplicate-free and holds exactly the instructors appearing with that
key. -/
theorem courseLegend_unique_keys_and_instructors (schedule : Schedule)
    (k i : String) :
    ((buildLegendMap schedule).map Prod.fst).Nodup ∧
    ((buildLegendMap schedule).lookup k ≠ none ↔
      ∃ c ∈ mfClasses schedule, legendKey c = k) ∧
    (∀ e, (buildLegendMap schedule).lookup k = some e →
      e.instructors.Nodup ∧
      (i ∈ e.instructors ↔
        ∃ c ∈ mfClasses schedule, legendKey c = k ∧ c.instructor = i)) := by
  have hlook := legend_foldl_lookup_none (mfClasses schedule) [] k (by simp)
  have hfilter : ∀ c, c ∈ (mfClasses schedule).filter (fun c => legendKey c == k) ↔
      c ∈ mfClasses schedule ∧ legendKey c = k := by
    intro c
    simp [List.mem_filter]
  refine ⟨nodup_keys_legend_foldl _ _ (by simp), ?_, ?_⟩
  · rw [buildLegendMap, hlook]
    cases hf : (mfClasses schedule).filter (fun c => legendKey c == k) with
    | nil =>
      simp only [ne_eq, not_true_eq_false, false_iff]
      rintro ⟨c, hc, hck⟩
      have : c ∈ ([] : List TimetableClass) := by
        rw [← hf, hfilter]
        exact ⟨hc, hck⟩
      simp at this
    | cons c0 rest =>
      simp only [ne_eq, reduceCtorEq, not_false_eq_true, true_iff]
      have : c0 ∈ (mfClasses schedule).filter (fun c => legendKey c == k) := by
        rw [hf]
        exact List.mem_cons_self _ _
      rw [hfilter] at this
      exact ⟨c0, this.1, this.2⟩
  · intro e he
    rw [buildLegendMap] at he
    rw [hlook] at he
    cases hf : (mfClasses schedule).filter (fun c => legendKey c == k) with
    | nil =>
      rw [hf] at he
      cases he
    | cons c0 rest =>
      rw [hf] at he
      have he' : e = addClasses
          { course_id := c0.course_id, course := c0.course,
            instructors := [c0.instructor] } rest := by
        cases he
        rfl
      subst he'
      constructor
      · exact nodup_instructors_addClasses _ _ (by simp)
      · rw [mem_instructors_addClasses]
        have hc0 : c0 ∈ mfClasses schedule ∧ legendKey c0 = k := by
          rw [← hfilter, hf]
          exact List.mem_cons_self _ _
        constructor
        · rintro (hi | ⟨c, hc, rfl⟩)
          · simp only [List.mem_singleton] at hi
            subst hi
            exact ⟨c0, hc0.1, hc0.2, rfl⟩
          · have : c ∈ (mfClasses schedule).filter (fun c => legendKey c == k) := by
              rw [hf]
              exact List.mem_cons_of_mem _ hc
            rw [hfilter] at this
            exact ⟨c, this.1, this.2, rfl⟩
        · rintro ⟨c, hc, hck, rfl⟩
          have : c ∈ (mfClasses schedule).filter (fun c => legendKey c == k) := by
            rw [hfilter]
            exact ⟨hc, hck⟩
          rw [hf] at this
          rcases List.mem_cons.mp this with rfl | hmem
          · exact Or.inl (List.mem_singleton.mpr rfl)
          · exact Or.inr ⟨c, hmem, rfl⟩

/-- C6 (spec-modelled): with elite count at least 1, the best fitness of the
next generation is at least the best fitness of the current one — the top
candidate is copied unchanged past crossover and mutation, whatever `breed`
produces. -/
theorem elitism_monotonic {α : Type} (fitness : α → ℚ) (eliteCount : ℕ)
    (breed : List α → List α) (pop : List α) (hE : 1 ≤ eliteCount) :
    bestFitness fitness pop ≤
      bestFitness fitness (nextGeneration fitness eliteCount breed pop) := by
  cases pop with
  | nil => simp [bestFitness]
  | cons p rest =>
    set le := fun a b : α => decide (fitness b ≤ fitness a) with hle
    set s := (p :: rest).mergeSort le with hs
    have hsne : s ≠ [] := by
      rw [hs]
      intro h0
      have h1 := congrArg List.length h0
      simp at h1
    obtain ⟨h, tl, hcons⟩ := List.exists_cons_of_ne_nil hsne
    have htrans : ∀ a b c : α, le a b = true → le b c = true → le a c = true := by
      intro a b c hab hbc
      simp only [hle, decide_eq_true_eq] at hab hbc ⊢
      exact le_trans hbc hab
    have htotal : ∀ a b : α, (le a b || le b a) = true := by
      intro a b
      simp only [hle, Bool.or_eq_true, decide_eq_true_eq]
      exact le_total _ _
    have hsorted := List.sorted_mergeSort htrans htotal (p :: rest)
    rw [← hs, hcons] at hsorted
    have hmax : ∀ x ∈ p :: rest, fitness x ≤ fitness h := by
      intro x hx
      have hxs : x ∈ s := by
        rw [hs, List.mem_mergeSort]
        exact hx
      rw [hcons] at hxs
      rcases List.mem_cons.mp hxs with rfl | hxtl
      · exact le_refl _
      · have hp := (List.pairwise_cons.mp hsorted).1 x hxtl
        simpa [hle, decide_eq_true_eq] using hp
    have hmem_next : h ∈ nextGeneration fitness eliteCount breed (p :: rest) := by
      apply List.mem_append_left
      unfold selectElites
      rw [← hle, ← hs, hcons]
      cases eliteCount with
      | zero => omega
      | succ n =>
        rw [List.take_succ_cons]
        exact List.mem_cons_self _ _
    have hnext : (fitness h : WithBot ℚ) ≤
        bestFitness fitness (nextGeneration fitness eliteCount breed (p :: rest)) :=
      List.le_maximum_of_mem' (List.mem_map_of_mem fitness hmem_next)
    have hpop : bestFitness fitness (p :: rest) ≤ (fitness h : WithBot ℚ) := by
      apply List.maximum_le_of_forall_le
      intro a ha
      obtain ⟨x, hx, rfl⟩ := List.mem_map.mp ha
      exact WithBot.coe_le_coe.mpr (hmax x hx)
    exact le_trans hpop hnext

/-- The monotonicity theorem at a concrete generation: population `[1, 2]`
of rational-valued candidates, elite count 1, a breeder that returns
nothing. -/
theorem elitism_monotonic_witness :
    1 ≤ 1 ∧
    bestFitness (fun q : ℚ => q) [1, 2] ≤
      bestFitness (fun q : ℚ => q)
        (nextGeneration (fun q : ℚ => q) 1 (fun _ => []) [1, 2]) :=
  ⟨le_refl 1,
   elitism_monotonic (fun q : ℚ => q) 1 (fun _ => []) [1, 2] (le_refl 1)⟩
